import Mathlib

/-!
Shallow embedding of the QuickRead RSVP playback engine
(src/quickread.py): tokenizer, ORP resolver, flash composer and
the timer-driven playback scheduler, with theorems checking the
specification's claims against this embedding.

Strings are modelled as Lean `String`/`List Char`; the regex character
classes `\s` and `\w` are modelled on their ASCII fragment, which covers
every character class decision the engine makes on the texts considered
here.  Millisecond delays and pacing multipliers are rationals; Python's
`int()` on a non-negative float is `Int.floor`.
-/

namespace QuickRead

/-- Constants from src/quickread.py lines 26-40. -/
def MIN_WPM : Nat := 100

def MAX_WPM : Nat := 1000

def WPM_STEP : Nat := 25

def DEFAULT_WPM : Nat := 300

def DEFAULT_WORDS_PER_FLASH : Nat := 1

def MAX_WORDS_PER_FLASH : Nat := 5

def REWIND_WORDS : Nat := 10

def FORWARD_WORDS : Nat := 10

def COMMA_DELAY_MULTIPLIER : ℚ := 3/2

def PERIOD_DELAY_MULTIPLIER : ℚ := 2

def MULTI_WORD_DELAY_MULTIPLIER : ℚ := 6/5

/-- The space character (written via its code point to keep character
literals unambiguous). -/
def spChar : Char := Char.ofNat 32

/-- The apostrophe character. -/
def aposChar : Char := Char.ofNat 39

/-- A single-space separator string. -/
def spaceSep : String := String.singleton spChar

/-- The empty string. -/
def emptyStr : String := ""

/-- Python regex `\s` (ASCII fragment): space, tab, newline, carriage
return, vertical tab, form feed. -/
def isPySpace (c : Char) : Bool :=
  c = spChar || c = Char.ofNat 9 || c = Char.ofNat 10 ||
  c = Char.ofNat 13 || c = Char.ofNat 11 || c = Char.ofNat 12

/-- Python regex `\w` (ASCII fragment): letters, digits, underscore. -/
def isWordChar (c : Char) : Bool :=
  c.isAlphanum || c = '_'

/-- Python `str.strip()`: remove leading and trailing whitespace. -/
def stripL (l : List Char) : List Char :=
  (l.rdropWhile isPySpace).dropWhile isPySpace

/-- Python `re.sub` of the pattern \s+ by a single space: replace
every maximal run of whitespace by one space.  The boolean records whether the previous
character belonged to a whitespace run. -/
def collapseAux : Bool → List Char → List Char
  | _, [] => []
  | prevSp, c :: cs =>
    if isPySpace c then
      if prevSp then collapseAux true cs else spChar :: collapseAux true cs
    else c :: collapseAux false cs

/-- The normalization of tokenize_text (src/quickread.py line 368):
strip the ends, then collapse each whitespace run to one space. -/
def normalizeWs (l : List Char) : List Char :=
  collapseAux false (stripL l)

/-- Python `str.split()` with no argument: split on whitespace runs,
dropping empty pieces.  `acc` holds the current word reversed. -/
def pySplitAux : List Char → List Char → List (List Char)
  | [], acc => if acc = [] then [] else [acc.reverse]
  | c :: cs, acc =>
    if isPySpace c then
      if acc = [] then pySplitAux cs [] else acc.reverse :: pySplitAux cs []
    else pySplitAux cs (c :: acc)

def pySplit (l : List Char) : List (List Char) :=
  pySplitAux l []

/-- A token: the word text as it appeared, plus the pacing multiplier
(src/quickread.py lines 361-398). -/
structure Token where
  word : String
  delay_multiplier : ℚ
deriving Repr, DecidableEq

/-- Trailing-punctuation classification of tokenize_text
(src/quickread.py lines 383-387): `re.search` of the anchored classes
[.!?] and then [,;:] — both only inspect the last character of a
whitespace-free word. -/
def trailingMultiplier (w : List Char) : ℚ :=
  match w.getLast? with
  | some c =>
    if c = '.' || c = '!' || c = '?' then PERIOD_DELAY_MULTIPLIER
    else if c = ',' || c = ';' || c = ':' then COMMA_DELAY_MULTIPLIER
    else 1
  | none => 1

/-- One iteration of the tokenize_text loop (src/quickread.py lines
376-396): skip empty units, classify the trailing character, strip the
word, and keep it only if non-empty. -/
def mkToken (w : List Char) : Option Token :=
  if w = [] then none
  else
    let m := trailingMultiplier w
    let cw := stripL w
    if cw = [] then none else some ⟨cw.asString, m⟩

/-- tokenize_text (src/quickread.py lines 361-398). -/
def tokenize_text (s : String) : List Token :=
  let t := normalizeWs s.toList
  if t = [] then []
  else (pySplit t).filterMap mkToken

/-- calculate_orp_index (src/quickread.py lines 401-426). -/
def calculate_orp_index (word : String) : Nat :=
  let length := (word.toList.filter isWordChar).length
  if length ≤ 1 then 0
  else if length ≤ 5 then 1
  else if length ≤ 9 then 2
  else if length ≤ 13 then 3
  else length / 4

/-- The loop of find_orp_in_word (src/quickread.py lines 437-443):
`count` is letter_count so far, `i` the current raw index. -/
def findOrpAux (r : Nat) : List Char → Nat → Nat → Nat
  | [], _, _ => 0
  | c :: cs, count, i =>
    if isWordChar c then
      if count = r then i else findOrpAux r cs (count + 1) (i + 1)
    else findOrpAux r cs count (i + 1)

/-- find_orp_in_word (src/quickread.py lines 429-445). -/
def find_orp_in_word (word : String) : Nat :=
  findOrpAux (calculate_orp_index word) word.toList 0 0

/-- The three labels of the ORP display widget: left text, focus (ORP)
character and right text. -/
structure FlashLayout where
  left : String
  focus : String
  right : String
deriving Repr, DecidableEq

/-- ORPDisplayWidget.clear (src/quickread.py lines 610-616): all three
labels empty, ORP colour reset. -/
def emptyLayout : FlashLayout :=
  ⟨emptyStr, emptyStr, emptyStr⟩

/-- ORPDisplayWidget.display_word (src/quickread.py lines 546-560). -/
def display_word (word : String) : FlashLayout :=
  if word = emptyStr then emptyLayout
  else
    let orp := find_orp_in_word word
    { left := if orp > 0 then (word.toList.take orp).asString else emptyStr
      focus :=
        if h : orp < word.toList.length then
          String.singleton (word.toList.get ⟨orp, h⟩)
        else emptyStr
      right :=
        if orp + 1 < word.toList.length then
          (word.toList.drop (orp + 1)).asString
        else emptyStr }

/-- ORPDisplayWidget.display_phrase (src/quickread.py lines 562-599). -/
def display_phrase (words : List String) : FlashLayout :=
  if words = [] then emptyLayout
  else if words.length = 1 then display_word (words.headD emptyStr)
  else
    let middle_idx := words.length / 2
    let middle_word := words.getD middle_idx emptyStr
    let orp := find_orp_in_word middle_word
    let left_words := words.take middle_idx
    let left_part_middle :=
      if orp > 0 then (middle_word.toList.take orp).asString else emptyStr
    let left_join := String.intercalate spaceSep left_words
    let left_text :=
      if left_join ≠ emptyStr ∧ left_part_middle ≠ emptyStr then
        left_join ++ spaceSep ++ left_part_middle
      else if left_part_middle ≠ emptyStr then left_part_middle
      else left_join
    let orp_char :=
      if h : orp < middle_word.toList.length then
        String.singleton (middle_word.toList.get ⟨orp, h⟩)
      else emptyStr
    let right_part_middle :=
      if orp + 1 < middle_word.toList.length then
        (middle_word.toList.drop (orp + 1)).asString
      else emptyStr
    let right_words := words.drop (middle_idx + 1)
    let right_text :=
      if right_part_middle ≠ emptyStr ∧ right_words ≠ [] then
        right_part_middle ++ spaceSep ++ String.intercalate spaceSep right_words
      else if right_words ≠ [] then String.intercalate spaceSep right_words
      else right_part_middle
    ⟨left_text, orp_char, right_text⟩

/-- The terminal message shown by display_next_word when the stream is
exhausted (src/quickread.py line 1310). -/
def doneMessage : String := "✓ Done!"

/-- What the ORP display currently shows: a flash layout, a centred
message (display_message also restyles the focus label, so a message is
distinct from a flash with the same text), or the cleared display. -/
inductive DisplayState where
  | flash (layout : FlashLayout)
  | message (text : String)
  | cleared
deriving Repr, DecidableEq

/-- The engine state held on the QuickReadApp window (src/quickread.py
lines 633-645), together with the observable timer and display/progress
outputs.  `timerInterval` is the millisecond value last passed to
`timer.start`; `timerActive` tracks start/stop. -/
structure AppState where
  tokens : List Token
  current_index : Nat
  is_playing : Bool
  is_paused : Bool
  wpm : Nat
  words_per_flash : Nat
  timerActive : Bool
  timerInterval : Int
  display : DisplayState
  progressValue : Int
deriving Repr, DecidableEq

/-- The state set up in QuickReadApp.__init__ (src/quickread.py lines
633-645). -/
def initState : AppState where
  tokens := []
  current_index := 0
  is_playing := false
  is_paused := false
  wpm := DEFAULT_WPM
  words_per_flash := DEFAULT_WORDS_PER_FLASH
  timerActive := false
  timerInterval := 0
  display := DisplayState.cleared
  progressValue := 0

/-- The current flash slice `self.tokens[self.current_index:end_index]`
with `end_index = min(self.current_index + self.words_per_flash,
len(self.tokens))` (src/quickread.py lines 1295-1296 and 1317-1318). -/
def flashTokens (s : AppState) : List Token :=
  let end_index := min (s.current_index + s.words_per_flash) s.tokens.length
  (s.tokens.drop s.current_index).take (end_index - s.current_index)

/-- The Python max over the delay_multiplier values of flash_tokens
(src/quickread.py line 1324); the list is non-empty at the call site. -/
def maxMultiplier : List Token → ℚ
  | [] => 1
  | t :: ts => (ts.map Token.delay_multiplier).foldl max t.delay_multiplier

/-- QuickReadApp.update_progress (src/quickread.py lines 1364-1370);
`progress_bar.setValue(int(progress))` truncates to an integer. -/
def update_progress (s : AppState) : AppState :=
  if s.tokens = [] then s
  else
    { s with progressValue :=
        ⌊((s.current_index : ℚ) / (s.tokens.length : ℚ)) * 100⌋ }

/-- The display update shared by show_current_word and display_next_word
(src/quickread.py lines 1298-1301 and 1327-1331). -/
def setFlashDisplay (s : AppState) (words : List String) : AppState :=
  if words.length = 1 then
    { s with display := DisplayState.flash (display_word (words.headD emptyStr)) }
  else
    { s with display := DisplayState.flash (display_phrase words) }

/-- QuickReadApp.show_current_word (src/quickread.py lines 1290-1302). -/
def show_current_word (s : AppState) : AppState :=
  if s.current_index ≥ s.tokens.length then s
  else setFlashDisplay s ((flashTokens s).map Token.word)

/-- QuickReadApp.display_next_word (src/quickread.py lines 1304-1348),
the tick handler wired to the timer.  The delay for the next tick is
`60000 / wpm` times the flash's maximum multiplier, times 1.2 when
words_per_flash > 1, truncated by `int()` before `timer.start`. -/
def display_next_word (s : AppState) : AppState :=
  if s.current_index ≥ s.tokens.length then
    { s with timerActive := false, is_playing := false,
             display := DisplayState.message doneMessage,
             progressValue := 100 }
  else
    let end_index := min (s.current_index + s.words_per_flash) s.tokens.length
    let flash_tokens := flashTokens s
    let max_delay_multiplier := maxMultiplier flash_tokens
    let s1 := setFlashDisplay s (flash_tokens.map Token.word)
    let s2 := update_progress { s1 with current_index := end_index }
    let base_delay : ℚ := 60000 / (s.wpm : ℚ)
    let delay0 := base_delay * max_delay_multiplier
    let delay :=
      if s.words_per_flash > 1 then delay0 * MULTI_WORD_DELAY_MULTIPLIER
      else delay0
    { s2 with timerActive := true, timerInterval := ⌊delay⌋ }

/-- QuickReadApp.stop_reading (src/quickread.py lines 1235-1244). -/
def stop_reading (s : AppState) : AppState :=
  { s with timerActive := false, is_playing := false, is_paused := false,
           current_index := 0, display := DisplayState.cleared,
           progressValue := 0 }

/-- QuickReadApp.pause_reading (src/quickread.py lines 1227-1233). -/
def pause_reading (s : AppState) : AppState :=
  { s with timerActive := false, is_playing := false, is_paused := true }

/-- QuickReadApp.resume_reading (src/quickread.py lines 1217-1225). -/
def resume_reading (s : AppState) : AppState :=
  let s1 :=
    if s.current_index ≥ s.tokens.length then { s with current_index := 0 }
    else s
  display_next_word { s1 with is_playing := true, is_paused := false }

/-- QuickReadApp.toggle_play_pause (src/quickread.py lines 1207-1215). -/
def toggle_play_pause (s : AppState) : AppState :=
  if s.tokens = [] then s
  else if s.is_playing then pause_reading s
  else resume_reading s

/-- The seek step of QuickReadApp.rewind (src/quickread.py lines
1252-1253): `max(REWIND_WORDS, len(self.tokens) // 20) *
self.words_per_flash`. -/
def rewindAmount (s : AppState) : Nat :=
  max REWIND_WORDS (s.tokens.length / 20) * s.words_per_flash

/-- The seek step of QuickReadApp.forward (src/quickread.py lines
1274-1275), the same formula with FORWARD_WORDS. -/
def forwardAmount (s : AppState) : Nat :=
  max FORWARD_WORDS (s.tokens.length / 20) * s.words_per_flash

/-- QuickReadApp.rewind (src/quickread.py lines 1246-1266).
`max(0, self.current_index - rewind_amount)` is truncated subtraction. -/
def rewind (s : AppState) : AppState :=
  if s.tokens = [] then s
  else
    let s1 := update_progress
      { s with current_index := s.current_index - rewindAmount s }
    if s1.is_playing then display_next_word { s1 with timerActive := false }
    else show_current_word s1

/-- QuickReadApp.forward (src/quickread.py lines 1268-1288). -/
def forward (s : AppState) : AppState :=
  if s.tokens = [] then s
  else
    let newIdx := min (s.tokens.length - 1) (s.current_index + forwardAmount s)
    let s1 := update_progress { s with current_index := newIdx }
    if s1.is_playing then display_next_word { s1 with timerActive := false }
    else show_current_word s1

/-- QuickReadApp.increase_wpm (src/quickread.py lines 1024-1031). -/
def increase_wpm (s : AppState) : AppState :=
  { s with wpm := min (s.wpm + WPM_STEP) MAX_WPM }

/-- QuickReadApp.decrease_wpm (src/quickread.py lines 1033-1040). -/
def decrease_wpm (s : AppState) : AppState :=
  { s with wpm := max (s.wpm - WPM_STEP) MIN_WPM }

/-- QuickReadApp.on_wpm_changed / on_reading_wpm_changed
(src/quickread.py lines 1004-1023): `self.wpm = value`, where the value
is delivered by a QSlider whose range is [MIN_WPM, MAX_WPM]
(src/quickread.py lines 757-759 and 894-896). -/
def on_wpm_changed (s : AppState) (value : Nat) : AppState :=
  { s with wpm := value }

/-- QuickReadApp.on_wpf_changed (src/quickread.py lines 1046-1049):
`self.words_per_flash = self.wpf_combo.currentData()`, where the combo
box only holds the items 1..MAX_WORDS_PER_FLASH (src/quickread.py lines
780-782). -/
def on_wpf_changed (s : AppState) (n : Nat) : AppState :=
  { s with words_per_flash := n }

/-- Outcome reported by start_reading: the two QMessageBox warnings, or
a started session. -/
inductive StartResult where
  | emptyTextError
  | noWordsError
  | started
deriving Repr, DecidableEq

/-- QuickReadApp.start_reading (src/quickread.py lines 1165-1205):
strip the input, warn and return on empty text or an empty token list,
otherwise install the new stream, reset the state and auto-start via
toggle_play_pause. -/
def start_reading (s : AppState) (input : String) : AppState × StartResult :=
  let text := (stripL input.toList).asString
  if text = emptyStr then (s, StartResult.emptyTextError)
  else
    let tokens := tokenize_text text
    if tokens = [] then (s, StartResult.noWordsError)
    else
      let s1 := { s with tokens := tokens, current_index := 0,
                         is_playing := false, is_paused := false,
                         progressValue := 0,
                         display := DisplayState.cleared }
      (toggle_play_pause s1, StartResult.started)

/-- States reachable through the scheduler's operations, starting from
the freshly constructed window.  WPM changes carry the QSlider range
bounds, batch-width changes the combo-box item bounds, since those
widgets can only deliver such values. -/
inductive Reachable : AppState → Prop where
  | init : Reachable initState
  | tick {s} : Reachable s → Reachable (display_next_word s)
  | toggle {s} : Reachable s → Reachable (toggle_play_pause s)
  | pauseStep {s} : Reachable s → Reachable (pause_reading s)
  | resumeStep {s} : Reachable s → Reachable (resume_reading s)
  | stopStep {s} : Reachable s → Reachable (stop_reading s)
  | rewindStep {s} : Reachable s → Reachable (rewind s)
  | forwardStep {s} : Reachable s → Reachable (forward s)
  | incWpm {s} : Reachable s → Reachable (increase_wpm s)
  | decWpm {s} : Reachable s → Reachable (decrease_wpm s)
  | setWpm {s v} : Reachable s → MIN_WPM ≤ v → v ≤ MAX_WPM →
      Reachable (on_wpm_changed s v)
  | setWpf {s n} : Reachable s → 1 ≤ n → n ≤ MAX_WORDS_PER_FLASH →
      Reachable (on_wpf_changed s n)
  | startStep {s input} : Reachable s → Reachable (start_reading s input).1

/-- The invariant of claim C5: position within the stream, WPM and
batch width within their ranges. -/
def StateInv (s : AppState) : Prop :=
  s.current_index ≤ s.tokens.length ∧
  MIN_WPM ≤ s.wpm ∧ s.wpm ≤ MAX_WPM ∧
  1 ≤ s.words_per_flash ∧ s.words_per_flash ≤ MAX_WORDS_PER_FLASH

/-- The progress fraction of §4.4 of the spec: `position /
length(stream)`.  update_progress displays `int(fraction * 100)` in the
progress bar. -/
def progressFraction (s : AppState) : ℚ :=
  (s.current_index : ℚ) / (s.tokens.length : ℚ)

/-- Join two layout pieces with a separating space exactly when both are
non-empty — the composition rule of §4.3 of the spec. -/
def joinGlue (a b : String) : String :=
  if a = emptyStr then b
  else if b = emptyStr then a
  else a ++ spaceSep ++ b

/-- Join a list of character-list words with single spaces
(`' '.join`). -/
def joinSp : List (List Char) → List Char
  | [] => []
  | [w] => w
  | w :: ws => w ++ spChar :: joinSp ws

/-- A word unit as produced by splitting: non-empty and free of
whitespace. -/
def GoodWord (w : List Char) : Prop :=
  w ≠ [] ∧ ∀ c ∈ w, isPySpace c = false

/-- The ORP letter-rank table of §4.2 of the spec, stated on the number
of word characters. -/
def orpTableRank (n : Nat) : Nat :=
  if n ≤ 1 then 0
  else if n ≤ 5 then 1
  else if n ≤ 9 then 2
  else if n ≤ 13 then 3
  else n / 4

/-- Number of word characters of a display string. -/
def countWordChars (s : String) : Nat :=
  (s.toList.filter isWordChar).length

/-! ### Concrete inputs and states used by the claim checks -/

/-- The word containing an apostrophe from the spec's tokenizer
example. -/
def itsWord : String := "It" ++ String.singleton aposChar ++ "s"

/-- The tokenizer example input of §8 of the spec. -/
def c3Input : String :=
  "Hi there. " ++ itsWord ++ " nice, ok?"

/-- The one-letter example word of §8 of the spec. -/
def aWord : String := "a"

/-- The example word of §8 of the spec: letters "hello" (n = 5), rank 1,
resolved index 1. -/
def helloWord : String := "hello,"

/-- A three-word flash used as concrete composer input. -/
def phraseWords : List String := ["quick", "example,", "here"]

/-- The token list the code produces for the spec's tokenizer example:
note the multipliers of the third and fourth tokens. -/
def c3Tokens : List Token :=
  [⟨"Hi", 1⟩, ⟨"there.", PERIOD_DELAY_MULTIPLIER⟩, ⟨itsWord, 1⟩,
   ⟨"nice,", COMMA_DELAY_MULTIPLIER⟩, ⟨"ok?", PERIOD_DELAY_MULTIPLIER⟩]

/-- A raw input with leading, trailing and doubled whitespace. -/
def c10Input : String := "  a  b "

def tkHi : Token := ⟨"hi", 1⟩

def tkYo : Token := ⟨"yo", 1⟩

/-- A two-token session on which stop_reading has just been called. -/
def stopState : AppState :=
  stop_reading { initState with tokens := [tkHi, tkYo] }

/-- A playing one-token session at 700 WPM, where the tick delay
60000/700 is not a whole number of milliseconds. -/
def delayState : AppState :=
  { initState with tokens := [tkHi], wpm := 700, is_playing := true }

/-- A playing one-token session at the default 300 WPM. -/
def delayStateDefault : AppState :=
  { initState with tokens := [tkHi], is_playing := true }

/-- A playing 40-token session at an interior position; the seek step is
max(10, 40/20) * 1 = 10, and 5 + 10 ≤ 39, so no clamp is hit. -/
def seekState : AppState :=
  { initState with tokens := List.replicate 40 tkHi, current_index := 5,
                   is_playing := true, timerActive := true }

/-- The same interior 40-token session, paused. -/
def seekStatePaused : AppState :=
  { seekState with is_playing := false, is_paused := true,
                   timerActive := false }

/-- A state still holding the stream of an earlier session. -/
def leftoverState : AppState :=
  { initState with tokens := [tkHi] }

/-- A playing one-token session right after its final flash was
emitted: the stream is exhausted but the Finished transition has not yet
fired. -/
def lastFlashState : AppState :=
  display_next_word { initState with tokens := [tkHi], is_playing := true }

/-- A one-token session after the terminal tick: the Finished state. -/
def finishedState : AppState :=
  display_next_word lastFlashState

/-! ### Projection lemmas for the scheduler operations -/

@[simp] theorem update_progress_tokens (s : AppState) :
    (update_progress s).tokens = s.tokens := by
  unfold update_progress; split <;> rfl

@[simp] theorem update_progress_current_index (s : AppState) :
    (update_progress s).current_index = s.current_index := by
  unfold update_progress; split <;> rfl

@[simp] theorem update_progress_is_playing (s : AppState) :
    (update_progress s).is_playing = s.is_playing := by
  unfold update_progress; split <;> rfl

@[simp] theorem update_progress_is_paused (s : AppState) :
    (update_progress s).is_paused = s.is_paused := by
  unfold update_progress; split <;> rfl

@[simp] theorem update_progress_wpm (s : AppState) :
    (update_progress s).wpm = s.wpm := by
  unfold update_progress; split <;> rfl

@[simp] theorem update_progress_words_per_flash (s : AppState) :
    (update_progress s).words_per_flash = s.words_per_flash := by
  unfold update_progress; split <;> rfl

@[simp] theorem update_progress_timerActive (s : AppState) :
    (update_progress s).timerActive = s.timerActive := by
  unfold update_progress; split <;> rfl

@[simp] theorem update_progress_timerInterval (s : AppState) :
    (update_progress s).timerInterval = s.timerInterval := by
  unfold update_progress; split <;> rfl

@[simp] theorem setFlashDisplay_tokens (s : AppState) (ws : List String) :
    (setFlashDisplay s ws).tokens = s.tokens := by
  unfold setFlashDisplay; split <;> rfl

@[simp] theorem setFlashDisplay_current_index (s : AppState) (ws : List String) :
    (setFlashDisplay s ws).current_index = s.current_index := by
  unfold setFlashDisplay; split <;> rfl

@[simp] theorem setFlashDisplay_is_playing (s : AppState) (ws : List String) :
    (setFlashDisplay s ws).is_playing = s.is_playing := by
  unfold setFlashDisplay; split <;> rfl

@[simp] theorem setFlashDisplay_is_paused (s : AppState) (ws : List String) :
    (setFlashDisplay s ws).is_paused = s.is_paused := by
  unfold setFlashDisplay; split <;> rfl

@[simp] theorem setFlashDisplay_wpm (s : AppState) (ws : List String) :
    (setFlashDisplay s ws).wpm = s.wpm := by
  unfold setFlashDisplay; split <;> rfl

@[simp] theorem setFlashDisplay_words_per_flash (s : AppState) (ws : List String) :
    (setFlashDisplay s ws).words_per_flash = s.words_per_flash := by
  unfold setFlashDisplay; split <;> rfl

@[simp] theorem setFlashDisplay_timerActive (s : AppState) (ws : List String) :
    (setFlashDisplay s ws).timerActive = s.timerActive := by
  unfold setFlashDisplay; split <;> rfl

@[simp] theorem setFlashDisplay_timerInterval (s : AppState) (ws : List String) :
    (setFlashDisplay s ws).timerInterval = s.timerInterval := by
  unfold setFlashDisplay; split <;> rfl

@[simp] theorem show_current_word_tokens (s : AppState) :
    (show_current_word s).tokens = s.tokens := by
  unfold show_current_word; split <;> simp

@[simp] theorem show_current_word_current_index (s : AppState) :
    (show_current_word s).current_index = s.current_index := by
  unfold show_current_word; split <;> simp

@[simp] theorem show_current_word_is_playing (s : AppState) :
    (show_current_word s).is_playing = s.is_playing := by
  unfold show_current_word; split <;> simp

@[simp] theorem show_current_word_wpm (s : AppState) :
    (show_current_word s).wpm = s.wpm := by
  unfold show_current_word; split <;> simp

@[simp] theorem show_current_word_words_per_flash (s : AppState) :
    (show_current_word s).words_per_flash = s.words_per_flash := by
  unfold show_current_word; split <;> simp

@[simp] theorem display_next_word_tokens (s : AppState) :
    (display_next_word s).tokens = s.tokens := by
  unfold display_next_word; split <;> simp

@[simp] theorem display_next_word_wpm (s : AppState) :
    (display_next_word s).wpm = s.wpm := by
  unfold display_next_word; split <;> simp

@[simp] theorem display_next_word_words_per_flash (s : AppState) :
    (display_next_word s).words_per_flash = s.words_per_flash := by
  unfold display_next_word; split <;> simp

theorem display_next_word_current_index (s : AppState) :
    (display_next_word s).current_index =
      if s.current_index ≥ s.tokens.length then s.current_index
      else min (s.current_index + s.words_per_flash) s.tokens.length := by
  unfold display_next_word; split <;> simp

theorem display_next_word_is_playing (s : AppState) :
    (display_next_word s).is_playing =
      if s.current_index ≥ s.tokens.length then false else s.is_playing := by
  unfold display_next_word; split <;> simp

theorem display_next_word_timerActive (s : AppState) :
    (display_next_word s).timerActive =
      if s.current_index ≥ s.tokens.length then false else true := by
  unfold display_next_word; split <;> simp

/-! ### Invariant preservation (claim C5) -/

theorem stateInv_tick {s : AppState} (h : StateInv s) :
    StateInv (display_next_word s) := by
  obtain ⟨h1, h2, h3, h4, h5⟩ := h
  refine ⟨?_, ?_, ?_, ?_, ?_⟩
  · rw [display_next_word_current_index, display_next_word_tokens]
    split <;> omega
  · rw [display_next_word_wpm]; exact h2
  · rw [display_next_word_wpm]; exact h3
  · rw [display_next_word_words_per_flash]; exact h4
  · rw [display_next_word_words_per_flash]; exact h5

theorem stateInv_resume {s : AppState} (h : StateInv s) :
    StateInv (resume_reading s) := by
  obtain ⟨h1, h2, h3, h4, h5⟩ := h
  unfold resume_reading
  apply stateInv_tick
  split
  · exact ⟨Nat.zero_le _, h2, h3, h4, h5⟩
  · exact ⟨h1, h2, h3, h4, h5⟩

theorem stateInv_pause {s : AppState} (h : StateInv s) :
    StateInv (pause_reading s) := by
  obtain ⟨h1, h2, h3, h4, h5⟩ := h
  exact ⟨h1, h2, h3, h4, h5⟩

theorem stateInv_toggle {s : AppState} (h : StateInv s) :
    StateInv (toggle_play_pause s) := by
  unfold toggle_play_pause
  split
  · exact h
  split
  · exact stateInv_pause h
  · exact stateInv_resume h

theorem stateInv_stop {s : AppState} (h : StateInv s) :
    StateInv (stop_reading s) := by
  obtain ⟨h1, h2, h3, h4, h5⟩ := h
  exact ⟨Nat.zero_le _, h2, h3, h4, h5⟩

theorem stateInv_show {s : AppState} (h : StateInv s) :
    StateInv (show_current_word s) := by
  obtain ⟨h1, h2, h3, h4, h5⟩ := h
  refine ⟨?_, ?_, ?_, ?_, ?_⟩ <;> simp
  · exact h1
  · exact h2
  · exact h3
  · exact h4
  · exact h5

theorem stateInv_rewind {s : AppState} (h : StateInv s) :
    StateInv (rewind s) := by
  obtain ⟨h1, h2, h3, h4, h5⟩ := h
  have hbase : ∀ j : Nat, j ≤ s.tokens.length →
      StateInv (update_progress { s with current_index := j }) := by
    intro j hj
    refine ⟨?_, ?_, ?_, ?_, ?_⟩ <;> simp
    · exact hj
    · exact h2
    · exact h3
    · exact h4
    · exact h5
  have hj : s.current_index - rewindAmount s ≤ s.tokens.length := by omega
  simp only [rewind]
  split
  · exact ⟨h1, h2, h3, h4, h5⟩
  · split
    · apply stateInv_tick
      obtain ⟨g1, g2, g3, g4, g5⟩ := hbase _ hj
      exact ⟨g1, g2, g3, g4, g5⟩
    · exact stateInv_show (hbase _ hj)

theorem stateInv_forward {s : AppState} (h : StateInv s) :
    StateInv (forward s) := by
  obtain ⟨h1, h2, h3, h4, h5⟩ := h
  have hbase : ∀ j : Nat, j ≤ s.tokens.length →
      StateInv (update_progress { s with current_index := j }) := by
    intro j hj
    refine ⟨?_, ?_, ?_, ?_, ?_⟩ <;> simp
    · exact hj
    · exact h2
    · exact h3
    · exact h4
    · exact h5
  have hj : min (s.tokens.length - 1) (s.current_index + forwardAmount s) ≤
      s.tokens.length := by omega
  simp only [forward]
  split
  · exact ⟨h1, h2, h3, h4, h5⟩
  · split
    · apply stateInv_tick
      obtain ⟨g1, g2, g3, g4, g5⟩ := hbase _ hj
      exact ⟨g1, g2, g3, g4, g5⟩
    · exact stateInv_show (hbase _ hj)

theorem stateInv_start {s : AppState} (input : String) (h : StateInv s) :
    StateInv (start_reading s input).1 := by
  obtain ⟨h1, h2, h3, h4, h5⟩ := h
  simp only [start_reading]
  split
  · exact ⟨h1, h2, h3, h4, h5⟩
  split
  · exact ⟨h1, h2, h3, h4, h5⟩
  · exact stateInv_toggle ⟨Nat.zero_le _, h2, h3, h4, h5⟩

theorem stateInv_inc {s : AppState} (h : StateInv s) :
    StateInv (increase_wpm s) := by
  obtain ⟨h1, h2, h3, h4, h5⟩ := h
  refine ⟨h1, ?_, ?_, h4, h5⟩ <;>
    · simp only [increase_wpm, MIN_WPM, MAX_WPM, WPM_STEP] at *
      omega

theorem stateInv_dec {s : AppState} (h : StateInv s) :
    StateInv (decrease_wpm s) := by
  obtain ⟨h1, h2, h3, h4, h5⟩ := h
  refine ⟨h1, ?_, ?_, h4, h5⟩ <;>
    · simp only [decrease_wpm, MIN_WPM, MAX_WPM, WPM_STEP] at *
      omega

/-- C5: in every state reachable through the scheduler's operations
(tick, rewind, forward, stop, pause, resume, toggle, speed and
batch-width changes, session start), the position stays within the
stream, wordsPerMinute stays in [100, 1000] and wordsPerFlash stays in
[1, 5]. -/
theorem reachable_state_invariant (s : AppState) (h : Reachable s) :
    StateInv s := by
  induction h with
  | init => exact ⟨by decide, by decide, by decide, by decide, by decide⟩
  | tick _ ih => exact stateInv_tick ih
  | toggle _ ih => exact stateInv_toggle ih
  | pauseStep _ ih => exact stateInv_pause ih
  | resumeStep _ ih => exact stateInv_resume ih
  | stopStep _ ih => exact stateInv_stop ih
  | rewindStep _ ih => exact stateInv_rewind ih
  | forwardStep _ ih => exact stateInv_forward ih
  | incWpm _ ih => exact stateInv_inc ih
  | decWpm _ ih => exact stateInv_dec ih
  | setWpm _ hlo hhi ih => exact ⟨ih.1, hlo, hhi, ih.2.2.2.1, ih.2.2.2.2⟩
  | setWpf _ hlo hhi ih => exact ⟨ih.1, ih.2.1, ih.2.2.1, hlo, hhi⟩
  | startStep _ ih => exact stateInv_start _ ih

/-- Witness for C5 at a concrete reachable state: one tick from the
fresh window. -/
theorem reachable_state_invariant_witness :
    StateInv (display_next_word initState) :=
  reachable_state_invariant _ (Reachable.tick Reachable.init)

/-! ### Claim C1: stop, stale ticks, and ticks after Finished -/

/-- Counterexample to C1 as stated: after stop_reading on a two-token
session, position is 0 and the timer is cancelled, but an
artificially-delivered stale tick is NOT a no-op — display_next_word
has no guard on is_playing, so it displays the flash at position 0,
advances the position to 1 and restarts the timer. -/
theorem stale_tick_after_stop_not_noop :
    stopState.current_index = 0 ∧
    stopState.is_playing = false ∧
    stopState.timerActive = false ∧
    (display_next_word stopState).current_index = 1 ∧
    (display_next_word stopState).timerActive = true ∧
    display_next_word stopState ≠ stopState := by
  refine ⟨rfl, rfl, rfl, by decide, by decide, by decide⟩

/-- C1 (amended): stop_reading cancels the pending timer and resets the
position to 0 (so no stale tick can be delivered by the cancelled
timer), and a tick delivered after the terminal Finished configuration
(stream exhausted, not playing, timer stopped, Done message shown,
progress at 100) is a state no-op; but a tick delivered directly after
stop with a non-empty stream re-enters playback instead of being
ignored. -/
theorem stop_resets_and_finished_tick_noop (s : AppState) :
    (stop_reading s).timerActive = false ∧
    (stop_reading s).current_index = 0 ∧
    (s.tokens.length ≤ s.current_index → s.is_playing = false →
      s.timerActive = false → s.display = DisplayState.message doneMessage →
      s.progressValue = 100 → display_next_word s = s) := by
  refine ⟨rfl, rfl, ?_⟩
  intro hlen hp ht hd hpr
  unfold display_next_word
  rw [if_pos (by omega)]
  cases s
  simp_all

/-- Witness for C1 at the concrete Finished state of a one-token
session. -/
theorem stop_resets_and_finished_tick_noop_witness :
    (stop_reading finishedState).timerActive = false ∧
    (stop_reading finishedState).current_index = 0 ∧
    display_next_word finishedState = finishedState := by
  have h := stop_resets_and_finished_tick_noop finishedState
  exact ⟨h.1, h.2.1,
    h.2.2 (by decide) (by decide) (by decide) (by decide) (by decide)⟩

/-! ### Claim C4: the tick delay formula -/

theorem le_foldl_max (a : ℚ) (l : List ℚ) : a ≤ l.foldl max a := by
  induction l generalizing a with
  | nil => exact le_refl a
  | cons c l ih => exact le_trans (le_max_left a c) (ih (max a c))

theorem mem_le_foldl_max {q : ℚ} {l : List ℚ} (a : ℚ) (hq : q ∈ l) :
    q ≤ l.foldl max a := by
  induction l generalizing a with
  | nil => cases hq
  | cons c l ih =>
    rw [List.foldl_cons]
    rcases List.mem_cons.mp hq with h | h
    · subst h
      exact le_trans (le_max_right a q) (le_foldl_max _ l)
    · exact ih (max a c) h

theorem foldl_max_mem (a : ℚ) (l : List ℚ) :
    l.foldl max a = a ∨ l.foldl max a ∈ l := by
  induction l generalizing a with
  | nil => exact Or.inl rfl
  | cons c l ih =>
    rcases ih (max a c) with h | h
    · rcases max_choice a c with hm | hm
      · exact Or.inl (by rw [List.foldl_cons, h, hm])
      · exact Or.inr (by rw [List.foldl_cons, h, hm]; exact List.mem_cons_self c l)
    · exact Or.inr (List.mem_cons_of_mem c h)

theorem maxMultiplier_mem {l : List Token} (h : l ≠ []) :
    maxMultiplier l ∈ l.map Token.delay_multiplier := by
  match l with
  | [] => exact absurd rfl h
  | t :: ts =>
    show (ts.map Token.delay_multiplier).foldl max t.delay_multiplier ∈ _
    rcases foldl_max_mem t.delay_multiplier (ts.map Token.delay_multiplier) with
      hm | hm
    · rw [hm, List.map_cons]
      exact List.mem_cons_self _ _
    · rw [List.map_cons]
      exact List.mem_cons_of_mem _ hm

theorem maxMultiplier_ge {l : List Token} {q : ℚ}
    (hq : q ∈ l.map Token.delay_multiplier) : q ≤ maxMultiplier l := by
  match l with
  | [] => simp at hq
  | t :: ts =>
    show q ≤ (ts.map Token.delay_multiplier).foldl max t.delay_multiplier
    rw [List.map_cons] at hq
    rcases List.mem_cons.mp hq with h | h
    · subst h
      exact le_foldl_max _ _
    · exact mem_le_foldl_max _ h

theorem flashTokens_ne_nil {s : AppState}
    (h : s.current_index < s.tokens.length) (hw : 1 ≤ s.words_per_flash) :
    flashTokens s ≠ [] := by
  have hlen : 0 < (flashTokens s).length := by
    simp only [flashTokens, List.length_take, List.length_drop]
    omega
  exact List.length_pos.mp hlen

theorem display_next_word_timerInterval {s : AppState}
    (h : s.current_index < s.tokens.length) :
    (display_next_word s).timerInterval =
      ⌊60000 / (s.wpm : ℚ) * maxMultiplier (flashTokens s) *
        (if 1 < s.words_per_flash then MULTI_WORD_DELAY_MULTIPLIER else 1)⌋ := by
  simp only [display_next_word]
  rw [if_neg (by omega)]
  simp only [update_progress]
  split
  · rfl
  · rw [mul_one]

/-- Counterexample to C4 as stated: at 700 WPM with a single-word flash
of multiplier 1.0 the formula gives 600/7 ≈ 85.71 ms, but the code
passes `int(delay)` to `timer.start`, so the scheduled delay is 85 ms,
not equal to the formula value. -/
theorem scheduled_delay_truncation :
    (display_next_word delayState).timerActive = true ∧
    (display_next_word delayState).timerInterval = 85 ∧
    maxMultiplier (flashTokens delayState) = 1 ∧
    ((display_next_word delayState).timerInterval : ℚ) ≠
      60000 / (delayState.wpm : ℚ) * maxMultiplier (flashTokens delayState) := by
  have hflash : flashTokens delayState = [tkHi] := rfl
  have hmax : maxMultiplier (flashTokens delayState) = 1 := by
    rw [hflash]; rfl
  have hwpm : delayState.wpm = 700 := rfl
  have hint : (display_next_word delayState).timerInterval = 85 := by
    rw [display_next_word_timerInterval (by decide), hmax, hwpm]
    rw [if_neg (by decide), Int.floor_eq_iff]
    norm_num
  refine ⟨by decide, hint, hmax, ?_⟩
  rw [hint, hmax, hwpm]
  norm_num

/-- C4 (amended): for every flash emitted by a tick, the millisecond
interval scheduled for the next tick is the FLOOR of
(60000 / wordsPerMinute) · (maximum pacingMultiplier among the flash's
constituent tokens) · (1.2 when wordsPerFlash > 1), the floor coming
from Python's `int()` before `timer.start`. -/
theorem scheduled_delay_formula (s : AppState)
    (h : s.current_index < s.tokens.length) (hw : 1 ≤ s.words_per_flash) :
    ∃ M : ℚ, M ∈ (flashTokens s).map Token.delay_multiplier ∧
      (∀ q ∈ (flashTokens s).map Token.delay_multiplier, q ≤ M) ∧
      (display_next_word s).timerActive = true ∧
      (display_next_word s).timerInterval =
        ⌊60000 / (s.wpm : ℚ) * M *
          (if 1 < s.words_per_flash then MULTI_WORD_DELAY_MULTIPLIER else 1)⌋ := by
  refine ⟨maxMultiplier (flashTokens s),
    maxMultiplier_mem (flashTokens_ne_nil h hw),
    fun q hq => maxMultiplier_ge hq, ?_, ?_⟩
  · rw [display_next_word_timerActive, if_neg (by omega)]
  · exact display_next_word_timerInterval h

/-- Witness for C4 at the default playing one-token session. -/
theorem scheduled_delay_formula_witness :
    ∃ M : ℚ, M ∈ (flashTokens delayStateDefault).map Token.delay_multiplier ∧
      (∀ q ∈ (flashTokens delayStateDefault).map Token.delay_multiplier,
        q ≤ M) ∧
      (display_next_word delayStateDefault).timerActive = true ∧
      (display_next_word delayStateDefault).timerInterval =
        ⌊60000 / (delayStateDefault.wpm : ℚ) * M *
          (if 1 < delayStateDefault.words_per_flash then
            MULTI_WORD_DELAY_MULTIPLIER else 1)⌋ :=
  scheduled_delay_formula delayStateDefault (by decide) (by decide)

/-! ### Claim C7: rewind/forward round trip -/

/-- Counterexample to C7 as stated: from the interior position 5 of a
playing 40-token session (step 10, no clamp hit: 5 + 10 ≤ 39),
forward() then rewind() ends at position 7, not 5 — while Playing, each
of the two operations immediately re-ticks, which advances the position
by wordsPerFlash on top of the seek. -/
theorem playing_round_trip_fails :
    seekState.is_playing = true ∧
    seekState.current_index = 5 ∧
    forwardAmount seekState = 10 ∧
    rewindAmount seekState = 10 ∧
    seekState.current_index + forwardAmount seekState ≤
      seekState.tokens.length - 1 ∧
    (rewind (forward seekState)).current_index = 7 ∧
    (rewind (forward seekState)).current_index ≠ seekState.current_index := by
  refine ⟨rfl, rfl, by decide, by decide, by decide, by decide, by decide⟩

/-- C7 (amended): when the engine is NOT Playing (paused or idle),
forward() followed by rewind() from an interior position where the
forward clamp is not hit returns the position to its original value;
both operations apply the same seek magnitude
max(10, length(stream)/20) * wordsPerFlash.  (While Playing, each call
additionally re-ticks and advances the position by wordsPerFlash.) -/
theorem seek_round_trip_not_playing (s : AppState) (hne : s.tokens ≠ [])
    (hnp : s.is_playing = false)
    (hno : s.current_index + forwardAmount s ≤ s.tokens.length - 1) :
    (rewind (forward s)).current_index = s.current_index ∧
    forwardAmount s = rewindAmount s ∧
    rewindAmount s = max 10 (s.tokens.length / 20) * s.words_per_flash := by
  have hfr : forwardAmount s = rewindAmount s := rfl
  have hf : forward s = show_current_word (update_progress
      { s with current_index := min (s.tokens.length - 1) (s.current_index + forwardAmount s) }) := by
    simp only [forward]
    rw [if_neg hne, if_neg (by simp [hnp])]
  have hfidx : (forward s).current_index =
      s.current_index + forwardAmount s := by
    rw [hf]
    simp only [show_current_word_current_index, update_progress_current_index]
    exact min_eq_right hno
  have htokens : (forward s).tokens = s.tokens := by
    rw [hf]; simp
  have hplay : (forward s).is_playing = false := by
    rw [hf]; simp [hnp]
  have hwpf : (forward s).words_per_flash = s.words_per_flash := by
    rw [hf]; simp
  have hramount : rewindAmount (forward s) = rewindAmount s := by
    unfold rewindAmount
    rw [htokens, hwpf]
  have hr : rewind (forward s) = show_current_word (update_progress
      { forward s with current_index := (forward s).current_index - rewindAmount (forward s) }) := by
    simp only [rewind]
    rw [if_neg (htokens ▸ hne), if_neg (by simp [hplay])]
  refine ⟨?_, hfr, rfl⟩
  rw [hr]
  simp only [show_current_word_current_index, update_progress_current_index]
  rw [hfidx, hramount, ← hfr]
  omega

/-- Witness for C7 at the concrete paused interior session. -/
theorem seek_round_trip_not_playing_witness :
    (rewind (forward seekStatePaused)).current_index =
      seekStatePaused.current_index ∧
    forwardAmount seekStatePaused = rewindAmount seekStatePaused ∧
    rewindAmount seekStatePaused =
      max 10 (seekStatePaused.tokens.length / 20) *
        seekStatePaused.words_per_flash :=
  seek_round_trip_not_playing seekStatePaused (by decide) rfl (by decide)

/-! ### Claim C8: start_reading on empty input -/

/-- Counterexample to C8 as stated: start_reading with empty text warns
and returns early, leaving the WHOLE state unchanged — so a stream left
over from an earlier session is retained, not cleared; the engine is not
left "with no stream". -/
theorem start_empty_keeps_old_stream :
    (start_reading leftoverState emptyStr).2 = StartResult.emptyTextError ∧
    (start_reading leftoverState emptyStr).1 = leftoverState ∧
    (start_reading leftoverState emptyStr).1.tokens ≠ [] := by
  refine ⟨rfl, rfl, by decide⟩

/-- C8 (amended): start_reading with empty or whitespace-only text, or
with a tokenization result of zero tokens, reports the corresponding
error condition and leaves the engine state entirely unchanged (in
particular, a fresh Idle engine stays Idle with no stream, while a
previously loaded stream is retained); it never starts a session. -/
theorem start_error_leaves_state_unchanged :
    (∀ (s : AppState) (input : String),
        (start_reading s input).2 ≠ StartResult.started →
        (start_reading s input).1 = s) ∧
    (∀ (s : AppState) (input : String), stripL input.toList = [] →
        start_reading s input = (s, StartResult.emptyTextError)) := by
  constructor
  · intro s input
    simp only [start_reading]
    split
    · intro _; rfl
    · split
      · intro _; rfl
      · intro h; exact absurd rfl h
  · intro s input h
    have hdata : stripL input.data = [] := h
    simp [start_reading, hdata]
    intro hc
    exact absurd rfl hc

/-- Witness for C8 at the fresh window with empty input. -/
theorem start_error_leaves_state_unchanged_witness :
    start_reading initState emptyStr = (initState, StartResult.emptyTextError) :=
  start_error_leaves_state_unchanged.2 initState emptyStr rfl

/-! ### Claim C9: the progress fraction -/

/-- Counterexample to C9 as stated: right after the tick that emits the
FINAL flash of a one-token session, the position equals the stream
length, so the progress fraction is already 1.0 — yet the engine is
still Playing (the Done message and the Finished configuration only
arrive one tick later), so the fraction does not reach 1.0 "only once
the phase is Finished". -/
theorem progress_one_while_playing :
    lastFlashState.is_playing = true ∧
    lastFlashState.current_index = lastFlashState.tokens.length ∧
    progressFraction lastFlashState = 1 ∧
    lastFlashState.display ≠ DisplayState.message doneMessage ∧
    lastFlashState.timerActive = true := by
  have h1 : lastFlashState.current_index = 1 := rfl
  have h2 : lastFlashState.tokens.length = 1 := rfl
  refine ⟨rfl, rfl, ?_, by decide, rfl⟩
  unfold progressFraction
  rw [h1, h2]
  norm_num

/-- C9 (amended): for a non-empty stream the progress fraction is
position / length(stream); it is 0 whenever the position is 0 (as at
session start), and it equals 1.0 exactly when the position has reached
the stream length — which happens already at the tick that emits the
final flash (engine still Playing) and persists through Finished. -/
theorem progress_fraction_spec (s : AppState) (h : s.tokens ≠ []) :
    (update_progress s).progressValue = ⌊progressFraction s * 100⌋ ∧
    progressFraction { s with current_index := 0 } = 0 ∧
    (progressFraction s = 1 ↔ s.current_index = s.tokens.length) := by
  have hlen0 : s.tokens.length ≠ 0 := by
    intro h0
    exact h (List.length_eq_zero.mp h0)
  have hlen : (s.tokens.length : ℚ) ≠ 0 := Nat.cast_ne_zero.mpr hlen0
  refine ⟨?_, ?_, ?_⟩
  · unfold update_progress
    rw [if_neg h]
    rfl
  · simp [progressFraction]
  · unfold progressFraction
    rw [div_eq_one_iff_eq hlen]
    exact Nat.cast_inj

/-- Witness for C9 at the final-flash state of a one-token session. -/
theorem progress_fraction_spec_witness :
    (update_progress lastFlashState).progressValue =
      ⌊progressFraction lastFlashState * 100⌋ ∧
    progressFraction { lastFlashState with current_index := 0 } = 0 ∧
    (progressFraction lastFlashState = 1 ↔
      lastFlashState.current_index = lastFlashState.tokens.length) :=
  progress_fraction_spec lastFlashState (by decide)

/-! ### Claim C2: ORP index resolution -/

theorem findOrpAux_gt {r : Nat} : ∀ (cs : List Char) (count i : Nat), r < count →
    findOrpAux r cs count i = 0 := by
  intro cs
  induction cs with
  | nil => intro count i _; rfl
  | cons c cs ih =>
    intro count i h
    simp only [findOrpAux]
    by_cases hw : isWordChar c
    · rw [if_pos hw, if_neg (by omega)]
      exact ih (count + 1) (i + 1) (by omega)
    · rw [if_neg hw]
      exact ih count (i + 1) h

theorem findOrpAux_all {r : Nat} : ∀ (cs : List Char) (count i : Nat),
    count ≤ r → (cs.filter isWordChar).length ≤ r - count →
    findOrpAux r cs count i = 0 := by
  intro cs
  induction cs with
  | nil => intro count i _ _; rfl
  | cons c cs ih =>
    intro count i hcr h
    simp only [findOrpAux]
    by_cases hw : isWordChar c
    · have hlen : ((c :: cs).filter isWordChar).length =
          (cs.filter isWordChar).length + 1 := by simp [hw]
      rw [hlen] at h
      rw [if_pos hw, if_neg (by omega)]
      exact ih (count + 1) (i + 1) (by omega) (by omega)
    · have hlen : ((c :: cs).filter isWordChar).length =
          (cs.filter isWordChar).length := by simp [hw]
      rw [hlen] at h
      rw [if_neg hw]
      exact ih count (i + 1) hcr h

theorem findOrpAux_found (r : Nat) : ∀ (cs : List Char) (count i : Nat),
    count ≤ r → r - count < (cs.filter isWordChar).length →
    ∃ j, ∃ hj : j < cs.length, findOrpAux r cs count i = i + j ∧
      isWordChar (cs.get ⟨j, hj⟩) = true ∧
      ((cs.take j).filter isWordChar).length = r - count := by
  intro cs
  induction cs with
  | nil => intro count i _ h; simp at h
  | cons c cs ih =>
    intro count i hcr h
    by_cases hw : isWordChar c
    · by_cases hcount : count = r
      · refine ⟨0, by simp, ?_, hw, by simp [hcount]⟩
        simp only [findOrpAux]
        rw [if_pos hw, if_pos hcount]
        omega
      · have hlen : ((c :: cs).filter isWordChar).length =
            (cs.filter isWordChar).length + 1 := by simp [hw]
        obtain ⟨j, hj, e1, e2, e3⟩ :=
          ih (count + 1) (i + 1) (by omega) (by omega)
        refine ⟨j + 1, Nat.succ_lt_succ hj, ?_, e2, ?_⟩
        · simp only [findOrpAux]
          rw [if_pos hw, if_neg hcount, e1]
          omega
        · simp [hw]
          omega
    · have hlen : ((c :: cs).filter isWordChar).length =
          (cs.filter isWordChar).length := by simp [hw]
      obtain ⟨j, hj, e1, e2, e3⟩ := ih count (i + 1) hcr (by omega)
      refine ⟨j + 1, Nat.succ_lt_succ hj, ?_, e2, ?_⟩
      · simp only [findOrpAux]
        rw [if_neg hw, e1]
        omega
      · simp [hw]
        omega

theorem orpTableRank_lt {n : Nat} (h : 1 ≤ n) : orpTableRank n < n := by
  unfold orpTableRank
  split_ifs <;> omega

/-- C2: for every display string, find_orp_in_word returns the index in
the original string of the word character whose 0-based rank among word
characters equals the table rank (n ≤ 1 → 0, 2–5 → 1, 6–9 → 2,
10–13 → 3, n ≥ 14 → n/4, for n word characters), and returns 0 when the
string has no word character; calculate_orp_index computes exactly that
table rank; in particular the resolved index of "a" is 0, that of
"hello," is 1, and letter counts 1, 5, 9, 13, 20 give ranks 0, 1, 2, 3,
5. -/
theorem orp_index_resolution :
    (∀ s : String, countWordChars s = 0 → find_orp_in_word s = 0) ∧
    (∀ s : String, 0 < countWordChars s →
      ∃ hj : find_orp_in_word s < s.toList.length,
        isWordChar (s.toList.get ⟨find_orp_in_word s, hj⟩) = true ∧
        ((s.toList.take (find_orp_in_word s)).filter isWordChar).length =
          orpTableRank (countWordChars s)) ∧
    (∀ s : String, calculate_orp_index s = orpTableRank (countWordChars s)) ∧
    find_orp_in_word aWord = 0 ∧ find_orp_in_word helloWord = 1 ∧
    orpTableRank 1 = 0 ∧ orpTableRank 5 = 1 ∧ orpTableRank 9 = 2 ∧
    orpTableRank 13 = 3 ∧ orpTableRank 20 = 5 := by
  refine ⟨?_, ?_, fun s => rfl, by decide, by decide, by decide, by decide,
    by decide, by decide, by decide⟩
  · intro s h
    unfold find_orp_in_word
    apply findOrpAux_all s.toList 0 0 (Nat.zero_le _)
    have hlen : (s.toList.filter isWordChar).length = 0 := h
    omega
  · intro s h
    have hcount : (s.toList.filter isWordChar).length = countWordChars s := rfl
    have hlt : orpTableRank (countWordChars s) < countWordChars s :=
      orpTableRank_lt (by omega)
    have hcalc : calculate_orp_index s = orpTableRank (countWordChars s) := rfl
    obtain ⟨j, hj, e1, e2, e3⟩ :=
      findOrpAux_found (calculate_orp_index s) s.toList 0 0 (Nat.zero_le _)
        (by rw [hcount, hcalc]; omega)
    have e4 : find_orp_in_word s = j := by
      unfold find_orp_in_word
      rw [e1]
      omega
    rw [e4]
    refine ⟨hj, e2, ?_⟩
    rw [e3, hcalc]
    omega

/-- Witness for C2 at the spec's example word "hello,". -/
theorem orp_index_resolution_witness :
    ∃ hj : find_orp_in_word helloWord < helloWord.toList.length,
      isWordChar (helloWord.toList.get ⟨find_orp_in_word helloWord, hj⟩) = true ∧
      ((helloWord.toList.take (find_orp_in_word helloWord)).filter
        isWordChar).length = orpTableRank (countWordChars helloWord) :=
  orp_index_resolution.2.1 helloWord (by decide)

/-! ### Claim C6: the flash composer -/

theorem asString_eq_empty_iff (l : List Char) :
    l.asString = emptyStr ↔ l = [] := by
  constructor
  · intro h
    exact congrArg String.data h
  · intro h
    rw [h]
    rfl

theorem take_if_pos_eq (l : List Char) (n : Nat) :
    (if n > 0 then (l.take n).asString else emptyStr) = (l.take n).asString := by
  match n with
  | 0 => rw [if_neg (by omega)]; rfl
  | n + 1 => rw [if_pos (by omega)]

theorem focus_dite_eq (l : List Char) (n : Nat) :
    (if h : n < l.length then String.singleton (l.get ⟨n, h⟩) else emptyStr) =
      ((l.drop n).take 1).asString := by
  by_cases h : n < l.length
  · rw [dif_pos h]
    rw [List.drop_eq_getElem_cons h]
    rfl
  · rw [dif_neg h]
    rw [List.drop_eq_nil_of_le (by omega)]
    rfl

theorem drop_if_eq (l : List Char) (n : Nat) :
    (if n < l.length then (l.drop n).asString else emptyStr) =
      (l.drop n).asString := by
  by_cases h : n < l.length
  · rw [if_pos h]
  · rw [if_neg h]
    rw [List.drop_eq_nil_of_le (by omega)]
    rfl

theorem joinSp_cons_append (x y : List Char) (rest : List (List Char)) :
    joinSp ((x ++ y) :: rest) = x ++ joinSp (y :: rest) := by
  cases rest with
  | nil => rfl
  | cons r rs =>
    show (x ++ y) ++ spChar :: joinSp (r :: rs) =
      x ++ (y ++ spChar :: joinSp (r :: rs))
    rw [List.append_assoc]

theorem intercalate_go_spec : ∀ (as : List String) (acc : String),
    String.intercalate.go acc spaceSep as =
      (joinSp (acc.toList :: as.map String.toList)).asString := by
  intro as
  induction as with
  | nil =>
    intro acc
    show acc = (joinSp [acc.toList]).asString
    cases acc
    rfl
  | cons a as ih =>
    intro acc
    show String.intercalate.go (acc ++ spaceSep ++ a) spaceSep as = _
    rw [ih]
    congr 1
    have htl : (acc ++ spaceSep ++ a).toList =
        (acc.toList ++ [spChar]) ++ a.toList := by
      show (acc ++ spaceSep ++ a).data = (acc.data ++ [spChar]) ++ a.data
      rw [String.data_append, String.data_append]
      rfl
    have hstep : joinSp (acc.toList :: a.toList :: as.map String.toList) =
        acc.toList ++ spChar :: joinSp (a.toList :: as.map String.toList) := rfl
    rw [htl, joinSp_cons_append, List.map_cons, hstep]
    simp

theorem intercalate_eq_joinSp (ws : List String) :
    String.intercalate spaceSep ws = (joinSp (ws.map String.toList)).asString := by
  cases ws with
  | nil => rfl
  | cons w ws =>
    show String.intercalate.go w spaceSep ws = _
    rw [intercalate_go_spec, List.map_cons]

theorem joinSp_cons_ne_nil {w : List Char} (h : w ≠ []) (rest : List (List Char)) :
    joinSp (w :: rest) ≠ [] := by
  cases rest with
  | nil => exact h
  | cons r rs =>
    show w ++ spChar :: joinSp (r :: rs) ≠ []
    simp

theorem intercalate_ne_empty (ws : List String) (h : ws ≠ [])
    (hall : ∀ w ∈ ws, w ≠ emptyStr) :
    String.intercalate spaceSep ws ≠ emptyStr := by
  match ws with
  | [] => exact absurd rfl h
  | w :: ws =>
    rw [intercalate_eq_joinSp, List.map_cons]
    intro hc
    apply joinSp_cons_ne_nil (w := w.toList) ?_ (ws.map String.toList)
    · exact (asString_eq_empty_iff _).mp hc
    · intro hc2
      apply hall w (List.mem_cons_self _ _)
      cases w
      cases hc2
      rfl

theorem python_left_join (a b : String) :
    (if a ≠ emptyStr ∧ b ≠ emptyStr then a ++ spaceSep ++ b
     else if b ≠ emptyStr then b else a) = joinGlue a b := by
  unfold joinGlue
  by_cases ha : a = emptyStr <;> by_cases hb : b = emptyStr <;>
    simp [ha, hb]

theorem python_right_join (a : String) (ws : List String)
    (hws : ws ≠ [] → String.intercalate spaceSep ws ≠ emptyStr) :
    (if a ≠ emptyStr ∧ ws ≠ [] then
        a ++ spaceSep ++ String.intercalate spaceSep ws
     else if ws ≠ [] then String.intercalate spaceSep ws else a) =
      joinGlue a (String.intercalate spaceSep ws) := by
  unfold joinGlue
  by_cases ha : a = emptyStr <;> by_cases hw : ws = []
  · subst ha; subst hw; simp [String.intercalate, emptyStr]
  · subst ha; simp [hw, hws hw]
  · subst hw
    have hane : ¬a = "" := ha
    simp [hane, String.intercalate, emptyStr]
  · simp [ha, hw, hws hw]

theorem getD_mem {l : List String} {n : Nat} (h : n < l.length) (d : String) :
    l.getD n d ∈ l := by
  rw [List.getD_eq_getElem?_getD, List.getElem?_eq_getElem h]
  exact List.getElem_mem h

/-- C6: for a flash of two or more tokens, the composer selects the
middle token at index ⌊count/2⌋, splits it at its ORP index into
left/focus/right, prepends the space-joined tokens before the middle to
the left part and appends the space-joined tokens after the middle to
the right part, each with a separating space exactly when both sides
are non-empty; a single token (also via display_phrase) is split as
left = text[:orp], focus = text[orp] (empty when out of bounds),
right = text[orp+1:]. -/
theorem compose_flash_layout :
    (∀ (words : List String), 2 ≤ words.length →
      (∀ w ∈ words, w ≠ emptyStr) →
      display_phrase words =
        { left := joinGlue
            (String.intercalate spaceSep (words.take (words.length / 2)))
            (((words.getD (words.length / 2) emptyStr).toList.take
              (find_orp_in_word (words.getD (words.length / 2) emptyStr))).asString),
          focus := (((words.getD (words.length / 2) emptyStr).toList.drop
              (find_orp_in_word (words.getD (words.length / 2) emptyStr))).take
                1).asString,
          right := joinGlue
            (((words.getD (words.length / 2) emptyStr).toList.drop
              (find_orp_in_word (words.getD (words.length / 2) emptyStr) +
                1)).asString)
            (String.intercalate spaceSep
              (words.drop (words.length / 2 + 1))) }) ∧
    (∀ w : String, display_word w =
        { left := (w.toList.take (find_orp_in_word w)).asString,
          focus := ((w.toList.drop (find_orp_in_word w)).take 1).asString,
          right := (w.toList.drop (find_orp_in_word w + 1)).asString }) ∧
    (∀ w : String, display_phrase [w] = display_word w) := by
  have hword : ∀ w : String, display_word w =
      { left := (w.toList.take (find_orp_in_word w)).asString,
        focus := ((w.toList.drop (find_orp_in_word w)).take 1).asString,
        right := (w.toList.drop (find_orp_in_word w + 1)).asString } := by
    intro w
    by_cases hw : w = emptyStr
    · rw [hw]
      decide
    · unfold display_word
      rw [if_neg hw]
      simp only [take_if_pos_eq, focus_dite_eq, drop_if_eq]
  refine ⟨?_, hword, fun w => rfl⟩
  intro words h2 hall
  have hne : words ≠ [] := by
    intro h
    rw [h] at h2
    simp at h2
  have hlen1 : words.length ≠ 1 := by omega
  have hmid : words.length / 2 < words.length := by omega
  have hmw : words.getD (words.length / 2) emptyStr ∈ words :=
    getD_mem hmid emptyStr
  simp only [display_phrase]
  rw [if_neg hne, if_neg hlen1]
  rw [take_if_pos_eq, focus_dite_eq, drop_if_eq]
  congr 1
  · exact python_left_join _ _
  · apply python_right_join
    intro hne2
    apply intercalate_ne_empty _ hne2
    intro w hw
    exact hall w (List.mem_of_mem_drop hw)

/-- Witness for C6 at a concrete three-word flash. -/
theorem compose_flash_layout_witness :
    display_phrase phraseWords =
      { left := joinGlue
          (String.intercalate spaceSep (phraseWords.take (phraseWords.length / 2)))
          (((phraseWords.getD (phraseWords.length / 2) emptyStr).toList.take
            (find_orp_in_word (phraseWords.getD (phraseWords.length / 2) emptyStr))).asString),
        focus := (((phraseWords.getD (phraseWords.length / 2) emptyStr).toList.drop
            (find_orp_in_word (phraseWords.getD (phraseWords.length / 2) emptyStr))).take
              1).asString,
        right := joinGlue
          (((phraseWords.getD (phraseWords.length / 2) emptyStr).toList.drop
            (find_orp_in_word (phraseWords.getD (phraseWords.length / 2) emptyStr) +
              1)).asString)
          (String.intercalate spaceSep
            (phraseWords.drop (phraseWords.length / 2 + 1))) } :=
  compose_flash_layout.1 phraseWords (by decide) (by decide)

/-! ### Tokenizer machinery: splitting, whitespace collapsing, stripping -/

theorem pySplitAux_good : ∀ (l acc : List Char),
    (∀ c ∈ acc, isPySpace c = false) →
    ∀ w ∈ pySplitAux l acc, w ≠ [] ∧ ∀ c ∈ w, isPySpace c = false := by
  intro l
  induction l with
  | nil =>
    intro acc hacc w hw
    simp only [pySplitAux] at hw
    split at hw
    · simp at hw
    · rename_i hne
      simp only [List.mem_singleton] at hw
      subst hw
      refine ⟨by simpa using hne, ?_⟩
      intro c hc
      exact hacc c (List.mem_reverse.mp hc)
  | cons c l ih =>
    intro acc hacc w hw
    simp only [pySplitAux] at hw
    split at hw
    · split at hw
      · exact ih [] (by simp) w hw
      · rename_i hne
        rcases List.mem_cons.mp hw with h | h
        · subst h
          refine ⟨by simpa using hne, ?_⟩
          intro x hx
          exact hacc x (List.mem_reverse.mp hx)
        · exact ih [] (by simp) w h
    · rename_i hc
      apply ih (c :: acc) ?_ w hw
      intro x hx
      rcases List.mem_cons.mp hx with h | h
      · subst h
        simpa using hc
      · exact hacc x h

theorem pySplitAux_append_word : ∀ (w rest acc : List Char),
    (∀ c ∈ w, isPySpace c = false) →
    pySplitAux (w ++ rest) acc = pySplitAux rest (w.reverse ++ acc) := by
  intro w
  induction w with
  | nil => intro rest acc _; simp
  | cons c w ih =>
    intro rest acc hall
    have hc : isPySpace c = false := hall c (List.mem_cons_self _ _)
    show pySplitAux (c :: (w ++ rest)) acc = _
    simp only [pySplitAux, hc]
    rw [ih rest (c :: acc) (fun x hx => hall x (List.mem_cons_of_mem _ hx))]
    simp

theorem joinSp_cons_of_ne_nil (w : List Char) {ws : List (List Char)}
    (h : ws ≠ []) : joinSp (w :: ws) = w ++ spChar :: joinSp ws := by
  cases ws with
  | nil => exact absurd rfl h
  | cons r rs => rfl

theorem pySplit_joinSp : ∀ (ws : List (List Char)),
    (∀ w ∈ ws, GoodWord w) → pySplit (joinSp ws) = ws := by
  intro ws
  induction ws with
  | nil => intro _; rfl
  | cons w ws ih =>
    intro hall
    have hw := hall w (List.mem_cons_self _ _)
    cases ws with
    | nil =>
      show pySplitAux w [] = [w]
      have h1 := pySplitAux_append_word w [] [] hw.2
      rw [List.append_nil, List.append_nil] at h1
      rw [h1]
      show (if w.reverse = [] then [] else [w.reverse.reverse]) = [w]
      rw [if_neg (by simp [hw.1]), List.reverse_reverse]
    | cons w2 ws2 =>
      show pySplitAux (w ++ spChar :: joinSp (w2 :: ws2)) [] = w :: w2 :: ws2
      rw [pySplitAux_append_word w _ [] hw.2, List.append_nil]
      show (if isPySpace spChar then
          (if w.reverse = [] then pySplitAux (joinSp (w2 :: ws2)) []
           else w.reverse.reverse :: pySplitAux (joinSp (w2 :: ws2)) [])
        else pySplitAux (joinSp (w2 :: ws2)) (spChar :: w.reverse)) = _
      rw [if_pos (by decide), if_neg (by simp [hw.1]), List.reverse_reverse]
      exact congrArg (w :: ·) (ih (fun x hx => hall x (List.mem_cons_of_mem _ hx)))

theorem collapseAux_true_eq (cs : List Char) :
    collapseAux true cs = collapseAux false (cs.dropWhile isPySpace) := by
  induction cs with
  | nil => rfl
  | cons c cs ih =>
    by_cases hc : isPySpace c
    · rw [List.dropWhile_cons_of_pos hc, ← ih]
      show collapseAux true (c :: cs) = collapseAux true cs
      simp [collapseAux, hc]
    · rw [List.dropWhile_cons_of_neg hc]
      show collapseAux true (c :: cs) = collapseAux false (c :: cs)
      simp [collapseAux, hc]

theorem collapseAux_nonspace_prefix : ∀ (w rest : List Char),
    (∀ c ∈ w, isPySpace c = false) →
    collapseAux false (w ++ rest) = w ++ collapseAux false rest := by
  intro w
  induction w with
  | nil => intro rest _; rfl
  | cons c w ih =>
    intro rest hall
    have hc : isPySpace c = false := hall c (List.mem_cons_self _ _)
    show collapseAux false (c :: (w ++ rest)) = _
    simp only [collapseAux, hc]
    rw [ih rest (fun x hx => hall x (List.mem_cons_of_mem _ hx))]
    simp

theorem dropWhile_head_false {p : Char → Bool} : ∀ (l : List Char) (d : Char)
    (t : List Char), l.dropWhile p = d :: t → p d = false := by
  intro l
  induction l with
  | nil => intro d t h; cases h
  | cons c l ih =>
    intro d t h
    by_cases hc : p c
    · rw [List.dropWhile_cons_of_pos hc] at h
      exact ih d t h
    · rw [List.dropWhile_cons_of_neg hc] at h
      cases h
      simpa using hc

theorem getLast?_dropWhile {p : Char → Bool} (l : List Char)
    (h : l.dropWhile p ≠ []) : (l.dropWhile p).getLast? = l.getLast? := by
  obtain ⟨t, ht⟩ := List.dropWhile_suffix p (l := l)
  conv_rhs => rw [← ht]
  rw [List.getLast?_append_of_ne_nil t h]

/-- Decomposition of the collapsed form of a list that neither starts
nor ends with whitespace: it is the single-space join of non-empty
whitespace-free words. -/
theorem collapse_decomp : ∀ (n : Nat) (cs : List Char), cs.length ≤ n →
    (∀ c, cs.head? = some c → isPySpace c = false) →
    (∀ c, cs.getLast? = some c → isPySpace c = false) →
    ∃ ws, (∀ w ∈ ws, GoodWord w) ∧ collapseAux false cs = joinSp ws ∧
      (ws = [] ↔ cs = []) := by
  intro n
  induction n with
  | zero =>
    intro cs hlen _ _
    have hcs : cs = [] := by
      cases cs
      · rfl
      · simp at hlen
    subst hcs
    exact ⟨[], by simp, rfl, by simp⟩
  | succ n ih =>
    intro cs hlen hhd hlast
    cases cs with
    | nil => exact ⟨[], by simp, rfl, by simp⟩
    | cons c cs2 =>
      have hc : isPySpace c = false := hhd c rfl
      have hsplit := List.takeWhile_append_dropWhile (fun x => !isPySpace x)
        (c :: cs2)
      have hwne : (c :: cs2).takeWhile (fun x => !isPySpace x) ≠ [] := by
        rw [List.takeWhile_cons_of_pos (by simp [hc])]
        simp
      have hwgood : ∀ x ∈ (c :: cs2).takeWhile (fun x => !isPySpace x),
          isPySpace x = false := by
        intro x hx
        simpa using List.mem_takeWhile_imp hx
      set w := (c :: cs2).takeWhile (fun x => !isPySpace x) with hwdef
      set rest := (c :: cs2).dropWhile (fun x => !isPySpace x) with hrestdef
      have hcoll : collapseAux false (c :: cs2) = w ++ collapseAux false rest := by
        conv_lhs => rw [← hsplit]
        exact collapseAux_nonspace_prefix w rest hwgood
      cases hrest : rest with
      | nil =>
        refine ⟨[w], ?_, ?_, by simp⟩
        · intro x hx
          rw [List.mem_singleton] at hx
          subst hx
          exact ⟨hwne, hwgood⟩
        · rw [hcoll, hrest]
          show w ++ [] = joinSp [w]
          rw [List.append_nil]
          rfl
      | cons d rest2 =>
        have hd : isPySpace d = true := by
          have := dropWhile_head_false (c :: cs2) d rest2 (hrestdef ▸ hrest)
          simpa using this
        have hlast_rest : ∀ e, rest.getLast? = some e → isPySpace e = false := by
          intro e he
          apply hlast
          rw [← hsplit]
          rw [List.getLast?_append_of_ne_nil w (by rw [hrest]; simp)]
          exact he
        have hrest2_ne : rest2 ≠ [] := by
          intro h0
          have : rest.getLast? = some d := by rw [hrest, h0]; rfl
          have := hlast_rest d this
          rw [hd] at this
          cases this
        have hlast_rest2 : ∀ e, rest2.getLast? = some e → isPySpace e = false := by
          intro e he
          apply hlast_rest
          rw [hrest]
          show ([d] ++ rest2).getLast? = some e
          rw [List.getLast?_append_of_ne_nil [d] hrest2_ne]
          exact he
        set restTail := rest2.dropWhile isPySpace with hrestTailDef
        have hrestTailNe : restTail ≠ [] := by
          intro h0
          have hall2 : ∀ x ∈ rest2, isPySpace x := by
            exact List.dropWhile_eq_nil_iff.mp h0
          have hm := List.getLast_mem hrest2_ne
          have := hlast_rest2 (rest2.getLast hrest2_ne)
            (List.getLast?_eq_getLast rest2 hrest2_ne)
          have := hall2 _ hm
          simp_all
        have hrestTailHd : ∀ e, restTail.head? = some e → isPySpace e = false := by
          intro e he
          cases hsee : restTail with
          | nil => rw [hsee] at he; cases he
          | cons x t =>
            rw [hsee] at he
            cases he
            exact dropWhile_head_false rest2 e t (hrestTailDef ▸ hsee)
        have hrestTailLast : ∀ e, restTail.getLast? = some e → isPySpace e = false := by
          intro e he
          apply hlast_rest2
          rw [← getLast?_dropWhile rest2 hrestTailNe]
          exact he
        have hlenTail : restTail.length ≤ n := by
          have hrestcs : rest = cs2.dropWhile (fun x => !isPySpace x) := by
            rw [hrestdef, List.dropWhile_cons_of_pos (by simp [hc])]
          have h1 : rest.length ≤ cs2.length := by
            rw [hrestcs]
            exact (List.dropWhile_suffix _).length_le
          have h2 : rest.length = rest2.length + 1 := by rw [hrest]; rfl
          have h3 : restTail.length ≤ rest2.length :=
            (List.dropWhile_suffix _).length_le
          have h0 : (c :: cs2).length = cs2.length + 1 := rfl
          omega
        obtain ⟨wsTail, hgoodTail, heqTail, hiffTail⟩ := ih restTail hlenTail hrestTailHd hrestTailLast
        have hwsTailNe : wsTail ≠ [] := by
          intro h0
          exact hrestTailNe (hiffTail.mp h0)
        refine ⟨w :: wsTail, ?_, ?_, by simp⟩
        · intro x hx
          rcases List.mem_cons.mp hx with h | h
          · subst h
            exact ⟨hwne, hwgood⟩
          · exact hgoodTail x h
        · rw [hcoll, hrest]
          show w ++ collapseAux false (d :: rest2) = _
          have : collapseAux false (d :: rest2) =
              spChar :: collapseAux true rest2 := by
            simp [collapseAux, hd]
          rw [this, collapseAux_true_eq, ← hrestTailDef, heqTail,
            joinSp_cons_of_ne_nil w hwsTailNe]

theorem stripL_head (l : List Char) :
    ∀ c, (stripL l).head? = some c → isPySpace c = false := by
  intro c hc
  unfold stripL at hc
  cases h : (l.rdropWhile isPySpace).dropWhile isPySpace with
  | nil => rw [h] at hc; cases hc
  | cons x t =>
    rw [h] at hc
    cases hc
    exact dropWhile_head_false _ c t h

theorem stripL_last (l : List Char) :
    ∀ c, (stripL l).getLast? = some c → isPySpace c = false := by
  intro c hc
  have hne : stripL l ≠ [] := by
    intro h0
    rw [h0] at hc
    cases hc
  unfold stripL at hc hne
  rw [getLast?_dropWhile _ hne] at hc
  have hne2 : l.rdropWhile isPySpace ≠ [] := by
    intro h0
    rw [h0] at hc
    cases hc
  have := List.rdropWhile_last_not (p := isPySpace) (l := l) hne2
  rw [List.getLast?_eq_getLast _ hne2] at hc
  cases hc
  simpa using this

theorem stripL_eq_self_of_good {w : List Char}
    (h : ∀ c ∈ w, isPySpace c = false) : stripL w = w := by
  unfold stripL
  have h1 : w.rdropWhile isPySpace = w := by
    rw [List.rdropWhile_eq_self_iff]
    intro hl
    simp [h _ (List.getLast_mem hl)]
  rw [h1]
  cases w with
  | nil => rfl
  | cons c t =>
    exact List.dropWhile_cons_of_neg (by simp [h c (List.mem_cons_self _ _)])

theorem mkToken_good {w : List Char} (h : GoodWord w) :
    mkToken w = some ⟨w.asString, trailingMultiplier w⟩ := by
  simp only [mkToken]
  rw [if_neg h.1, stripL_eq_self_of_good h.2, if_neg h.1]

theorem filterMap_mkToken_good : ∀ (ws : List (List Char)),
    (∀ w ∈ ws, GoodWord w) →
    ws.filterMap mkToken =
      ws.map (fun w => ⟨w.asString, trailingMultiplier w⟩) := by
  intro ws
  induction ws with
  | nil => intro _; rfl
  | cons w ws ih =>
    intro hall
    rw [List.filterMap_cons, mkToken_good (hall w (List.mem_cons_self _ _)),
      List.map_cons, ih (fun x hx => hall x (List.mem_cons_of_mem _ hx))]

/-- tokenize_text, restructured: the tokens are exactly the split words
of the whitespace-normalized input, each carrying its trailing-character
multiplier. -/
theorem tokenize_text_eq (s : String) :
    tokenize_text s = (pySplit (normalizeWs s.toList)).map
      (fun w => ⟨w.asString, trailingMultiplier w⟩) := by
  by_cases ht : normalizeWs s.toList = []
  · simp only [tokenize_text]
    rw [if_pos ht, ht]
    rfl
  · simp only [tokenize_text]
    rw [if_neg ht]
    exact filterMap_mkToken_good _ (pySplitAux_good _ [] (by simp))

/-- The normalized input decomposes as the single-space join of
non-empty whitespace-free words, and the split recovers them. -/
theorem normalizeWs_decomp (l : List Char) :
    ∃ ws, (∀ w ∈ ws, GoodWord w) ∧ normalizeWs l = joinSp ws ∧
      pySplit (normalizeWs l) = ws ∧ (ws = [] ↔ stripL l = []) := by
  obtain ⟨ws, hgood, heq, hiff⟩ := collapse_decomp (stripL l).length (stripL l)
    le_rfl (stripL_head l) (stripL_last l)
  refine ⟨ws, hgood, heq, ?_, hiff⟩
  show pySplit (collapseAux false (stripL l)) = ws
  rw [heq]
  exact pySplit_joinSp ws hgood

/-! ### Claim C10: tokenization preserves the normalized text -/

/-- C10: joining the word texts of tokenize_text with single spaces
recovers the whitespace-normalized input; every token text is non-empty
and whitespace-free; and tokenize_text yields at least one token
whenever the normalized input is non-empty. -/
theorem tokenize_words_join_normalized :
    (∀ s : String,
      String.intercalate spaceSep ((tokenize_text s).map Token.word) =
        (normalizeWs s.toList).asString) ∧
    (∀ s : String, ∀ t ∈ tokenize_text s,
      t.word ≠ emptyStr ∧ ∀ c ∈ t.word.toList, isPySpace c = false) ∧
    (∀ s : String, normalizeWs s.toList ≠ [] → tokenize_text s ≠ []) := by
  refine ⟨?_, ?_, ?_⟩
  · intro s
    obtain ⟨ws, hgood, heq, hps, hiff⟩ := normalizeWs_decomp s.toList
    rw [tokenize_text_eq, hps, List.map_map]
    have h1 : (Token.word ∘ fun w : List Char =>
        (⟨w.asString, trailingMultiplier w⟩ : Token)) = List.asString :=
      funext fun w => rfl
    rw [h1, intercalate_eq_joinSp, heq, List.map_map]
    have h2 : (String.toList ∘ List.asString) = (id : List Char → List Char) :=
      funext fun w => rfl
    rw [h2, List.map_id]
  · intro s t ht
    rw [tokenize_text_eq] at ht
    obtain ⟨w, hwmem, hweq⟩ := List.mem_map.mp ht
    obtain ⟨ws, hgood, heq, hps, hiff⟩ := normalizeWs_decomp s.toList
    rw [hps] at hwmem
    have hg := hgood w hwmem
    constructor
    · rw [← hweq]
      intro hc
      exact hg.1 ((asString_eq_empty_iff w).mp hc)
    · rw [← hweq]
      intro c hc
      exact hg.2 c hc
  · intro s hne
    obtain ⟨ws, hgood, heq, hps, hiff⟩ := normalizeWs_decomp s.toList
    rw [tokenize_text_eq, hps]
    intro hc
    rw [List.map_eq_nil_iff] at hc
    apply hne
    rw [heq, hc]
    rfl

/-- Witness for C10 at a raw input with leading, trailing and doubled
whitespace. -/
theorem tokenize_words_join_normalized_witness :
    String.intercalate spaceSep ((tokenize_text c10Input).map Token.word) =
      (normalizeWs c10Input.toList).asString ∧
    tokenize_text c10Input ≠ [] :=
  ⟨tokenize_words_join_normalized.1 c10Input,
   tokenize_words_join_normalized.2.2 c10Input (by decide)⟩

/-! ### Claim C3: pacing multipliers from trailing punctuation -/

/-- The trailing-character classification exactly as the spec words it,
with propositional conditions. -/
theorem trailingMultiplier_spec (w : List Char) :
    trailingMultiplier w =
      (match w.getLast? with
        | some c =>
          if c = '.' ∨ c = '!' ∨ c = '?' then PERIOD_DELAY_MULTIPLIER
          else if c = ',' ∨ c = ';' ∨ c = ':' then COMMA_DELAY_MULTIPLIER
          else 1
        | none => 1) := by
  unfold trailingMultiplier
  cases w.getLast? with
  | none => rfl
  | some c =>
    show (if c = '.' || c = '!' || c = '?' then PERIOD_DELAY_MULTIPLIER
      else if c = ',' || c = ';' || c = ':' then COMMA_DELAY_MULTIPLIER
      else 1) =
      (if c = '.' ∨ c = '!' ∨ c = '?' then PERIOD_DELAY_MULTIPLIER
       else if c = ',' ∨ c = ';' ∨ c = ':' then COMMA_DELAY_MULTIPLIER
       else 1)
    by_cases h1 : c = '.' ∨ c = '!' ∨ c = '?'
    · rw [if_pos h1, if_pos (by simpa [or_assoc] using h1)]
    · rw [if_neg h1, if_neg (by simpa [or_assoc, and_assoc] using h1)]
      by_cases h2 : c = ',' ∨ c = ';' ∨ c = ':'
      · rw [if_pos h2, if_pos (by simpa [or_assoc] using h2)]
      · rw [if_neg h2, if_neg (by simpa [or_assoc, and_assoc] using h2)]

/-- Counterexample to C3 as stated: on the spec's own example the code
produces multipliers [1.0, 2.0, 1.0, 1.5, 2.0] — the third token ends
in the letter s (multiplier 1.0) and the fourth ends in a comma
(multiplier 1.5) — not the claimed [1.0, 2.0, 1.5, 1.0, 2.0]. -/
theorem tokenize_example_multipliers_differ :
    (tokenize_text c3Input).map Token.word =
      ["Hi", "there.", itsWord, "nice,", "ok?"] ∧
    (tokenize_text c3Input).map Token.delay_multiplier = [1, 2, 1, 3/2, 2] ∧
    (tokenize_text c3Input).map Token.delay_multiplier ≠
      [1, 2, 3/2, 1, 2] := by
  have hmap : (tokenize_text c3Input).map Token.delay_multiplier =
      [1, 2, 1, 3/2, 2] := rfl
  refine ⟨rfl, hmap, ?_⟩
  rw [hmap]
  intro h
  simp only [List.cons.injEq] at h
  have h3 : (1 : ℚ) = 3/2 := h.2.2.1
  norm_num at h3

/-- C3 (amended): every token's pacing multiplier is determined only by
its trailing character — 2.0 for [.!?], else 1.5 for [,;:], else 1.0,
period class first — with the token text kept verbatim; on the example
of the spec the produced token list is c3Tokens, whose multipliers are
[1.0, 2.0, 1.0, 1.5, 2.0]. -/
theorem tokenize_pacing_trailing_char :
    (∀ (s : String), ∀ t ∈ tokenize_text s,
      t.delay_multiplier =
        (match t.word.toList.getLast? with
          | some c =>
            if c = '.' ∨ c = '!' ∨ c = '?' then PERIOD_DELAY_MULTIPLIER
            else if c = ',' ∨ c = ';' ∨ c = ':' then COMMA_DELAY_MULTIPLIER
            else 1
          | none => 1)) ∧
    tokenize_text c3Input = c3Tokens := by
  constructor
  · intro s t ht
    rw [tokenize_text_eq] at ht
    obtain ⟨w, hwmem, hweq⟩ := List.mem_map.mp ht
    rw [← hweq]
    exact trailingMultiplier_spec w
  · rfl

/-- Witness for C3 at the second token of the spec's example. -/
theorem tokenize_pacing_trailing_char_witness :
    (⟨"there.", PERIOD_DELAY_MULTIPLIER⟩ : Token).delay_multiplier =
      (match (⟨"there.", PERIOD_DELAY_MULTIPLIER⟩ : Token).word.toList.getLast? with
        | some c =>
          if c = '.' ∨ c = '!' ∨ c = '?' then PERIOD_DELAY_MULTIPLIER
          else if c = ',' ∨ c = ';' ∨ c = ':' then COMMA_DELAY_MULTIPLIER
          else 1
        | none => 1) :=
  tokenize_pacing_trailing_char.1 c3Input ⟨"there.", PERIOD_DELAY_MULTIPLIER⟩
    (by rw [show tokenize_text c3Input = c3Tokens from rfl]
        exact List.mem_cons_of_mem _ (List.mem_cons_self _ _))

end QuickRead
